import Mathlib

/-!
Verification development for the crawl frontier and resumable visit state
machine of the health-to-mp3 repository (src/src/scrapers/crawler.py,
class Crawler).

The embedding mirrors the source:
* URL strings are Lean `String`s; character-level processing works through
  `String.toList` on `List Char`, which matches Python's view of a `str`
  as a sequence of code points.
* `urlparseChars` models Python's `urllib.parse.urlparse` restricted to
  the absolute URLs the crawler operates on (strings of shape
  `scheme "://" netloc [path] ["?" query] ["#" fragment]`).  A string with
  no "://" separator is parsed with empty scheme and netloc, and so fails
  the scope filter, exactly as it would in the source.
* `normalizeParsed` / `processLink` model the inline normalization and
  scope filter in `Crawler.visit_page` (crawler.py lines 272-296).
* `CrawlState` / `crawlIter` / `crawlRun` model the crawl loop
  (`Crawler.crawl`, lines 347-447): selection and removal of a frontier
  URL, the visited-guard, the per-URL retry loop, the merge of newly
  discovered links, the periodic save, and the failure bookkeeping.
  Randomness (`random.choice`) is modelled by an arbitrary `pick`
  function, and the external page visits by an arbitrary `oracle`
  returning the raw links plus the success flag of each attempt; the
  fuel argument of `crawlRun` also models a loop-fatal exception that
  aborts the loop after a given number of iterations.
* `FileState` / `loadExistingUrls` model `Crawler.load_existing_urls`
  (lines 38-49) over an abstract file system: the checkpoint file can be
  missing, unreadable/unparsable (any raised exception), or present with
  a `urls` list.
* `saveUrlsToJson` / `crawlSession` model `Crawler.save_urls_to_json`
  (lines 320-345) and the try/except/finally structure of `Crawler.crawl`
  (lines 370-447): the loop body runs under a catch-all, and the
  `finally` block always performs a final `save_urls_to_json(all_links)`
  and returns the session result.
-/

namespace Crawler

/-- Character sequences, the working representation of Python strings. -/
abbrev Chars := List Char

/-- Result of `urllib.parse.urlparse` as used by the crawler: the
`scheme`, `netloc`, `path` and `query` components (fragment and params
are never read by the source, so they are dropped). -/
structure ParsedUrl where
  scheme : Chars
  netloc : Chars
  path : Chars
  query : Chars
deriving DecidableEq

/-- Splits a character list at the first occurrence of any stop
character: `(spanNot stops l).1` is the longest prefix free of `stops`,
and `(spanNot stops l).2` is the rest, beginning with the stop character
when one occurs. -/
def spanNot (stops : Chars) : Chars → Chars × Chars
  | [] => ([], [])
  | c :: cs =>
    if c ∈ stops then ([], c :: cs)
    else ((c :: (spanNot stops cs).1), (spanNot stops cs).2)

/-- The `uses_params` scheme list of CPython `urllib/parse.py`: for
these schemes (and only these) `urlparse` separates a `;params` suffix
from the last path segment. -/
def usesParams : List Chars :=
  [[], "ftp".toList, "hdl".toList, "prospero".toList, "http".toList,
   "imap".toList, "https".toList, "shttp".toList, "rtsp".toList,
   "rtspu".toList, "sip".toList, "sips".toList, "mms".toList,
   "sftp".toList, "tel".toList]

/-- The final segment of a path: the characters after the last `/`,
or the whole string when it contains no `/` (CPython searches for the
params `;` from `url.rfind('/')`). -/
def lastSeg (l : Chars) : Chars :=
  (l.reverse.takeWhile (fun c => c ≠ '/')).reverse

/-- CPython `_splitparams`, restricted to the path component it is
returned into: everything up to and including the last `/`, then the
final segment truncated at its first `;`.  When the final segment has
no `;`, or the string has no `/` and no `;`, the path is unchanged,
exactly as in the source (`i < 0` returns `url` whole). -/
def splitParamsPath (l : Chars) : Chars :=
  (l.reverse.dropWhile (fun c => c ≠ '/')).reverse ++ (spanNot [';'] (lastSeg l)).1

/-- The params step of CPython `urlparse`: the `;params` split is
applied only when the scheme is in `uses_params` and the path contains
a `;` (`if scheme in uses_params and ';' in url`); the separated
params component is never read by the crawler, so it is dropped. -/
def applyParams (scheme l : Chars) : Chars :=
  if scheme ∈ usesParams ∧ ';' ∈ l then splitParamsPath l else l

/-- Model of Python `urlparse` for the absolute URLs handled by the
crawler.  The scheme is everything before the first `:`, taken as
written (the crawler's links carry lowercase schemes already valid per
CPython's check, which otherwise lowercases and validates it); it must
be followed by `//`, after which the netloc extends to the first of
`/ ? #`, the path to the first of `? #`, and the query (present only
after a `?` that precedes any `#`) to the first `#`; finally the
`;params` suffix of the path's last segment is split off for
`uses_params` schemes.  Strings without a `"://"` separator yield
empty scheme and netloc with the whole input as path (subject to the
same params split, as the empty scheme is in `uses_params`); such
strings never match the crawler's host filter. -/
def urlparseChars (l : Chars) : ParsedUrl :=
  let s1 := spanNot [':'] l
  if s1.2.take 3 = [':', '/', '/'] then
    let s2 := spanNot ['/', '?', '#'] (s1.2.drop 3)
    let s3 := spanNot ['?', '#'] s2.2
    let query := if s3.2.take 1 = ['?'] then (spanNot ['#'] (s3.2.drop 1)).1 else []
    ⟨s1.1, s2.1, applyParams s1.1 s3.1, query⟩
  else
    ⟨[], [], applyParams [] l, []⟩

/-- Model of Python `str.split('&')`: `"".split('&') = [""]`,
`"a&&b".split('&') = ["a", "", "b"]`. -/
def splitAmp : Chars → List Chars
  | [] => [[]]
  | c :: cs =>
    if c = '&' then [] :: splitAmp cs
    else
      match splitAmp cs with
      | [] => [[c]]
      | p :: ps => (c :: p) :: ps

/-- Model of Python `'&'.join(parts)`. -/
def joinAmp : List Chars → Chars
  | [] => []
  | [p] => p
  | p :: q :: ps => p ++ '&' :: joinAmp (q :: ps)

/-- The query-parameter allowlist of crawler.py line 290: a parameter is
kept when it starts with `id=`, `page=`, `category=` or `p=`. -/
def importantKeys : List Chars :=
  [('i' :: 'd' :: '=' :: []),
   ('p' :: 'a' :: 'g' :: 'e' :: '=' :: []),
   ('c' :: 'a' :: 't' :: 'e' :: 'g' :: 'o' :: 'r' :: 'y' :: '=' :: []),
   ('p' :: '=' :: [])]

/-- Whether a query parameter is on the allowlist (crawler.py line 290). -/
def isImportant (q : Chars) : Bool :=
  importantKeys.any (fun k => k.isPrefixOf q)

/-- The URL normalization of crawler.py lines 283-292: rebuild
`scheme://netloc path`, strip the last character when the path ends with
`/`, then re-append the allowlisted query parameters, joined by `&`, when
the query is nonempty and at least one parameter is kept. -/
def normalizeParsed (p : ParsedUrl) : Chars :=
  let base0 := p.scheme ++ ':' :: '/' :: '/' :: p.netloc ++ p.path
  let base := if p.path.getLast? = some '/' then base0.dropLast else base0
  if p.query = [] then base
  else
    let important := (splitAmp p.query).filter isImportant
    if important = [] then base
    else base ++ '?' :: joinAmp important

/-- Normalization as a function on URL strings: parse, then rebuild the
canonical form, as in crawler.py lines 276-292. -/
def normalize (s : String) : String :=
  (normalizeParsed (urlparseChars s.toList)).asString

/-- The host scope test of crawler.py line 279: the netloc must equal
the configured site path exactly, or `www.` followed by it. -/
def hostOk (site : Chars) (p : ParsedUrl) : Bool :=
  p.netloc == site || p.netloc == ('w' :: 'w' :: 'w' :: '.' :: site)

/-- The binary/media extension denylist of crawler.py line 281. -/
def denyExts : List Chars :=
  [".pdf".toList, ".jpg".toList, ".png".toList, ".gif".toList,
   ".zip".toList, ".mp3".toList, ".mp4".toList]

/-- The denylist test of crawler.py line 281.  Note the source checks
`link.endswith(ext)` on the whole link string, not on the parsed path. -/
def endsWithDenied (link : Chars) : Bool :=
  denyExts.any (fun e => e.isSuffixOf link)

/-- The per-raw-link filter and normalization of crawler.py lines
273-294: keep the link only when the host is in scope and the full link
string does not end with a denylisted extension, and return its
normalized form.  (The source wraps the body in try/except-continue;
none of the modelled operations raises.) -/
def processLink (site : Chars) (link : Chars) : Option Chars :=
  let p := urlparseChars link
  if hostOk site p then
    if endsWithDenied link then none
    else some (normalizeParsed p)
  else none

/-- String-level wrapper of `processLink`. -/
def processLinkS (sitePath link : String) : Option String :=
  (processLink sitePath.toList link.toList).map List.asString

/-- The set `internal_links` computed by `Crawler.visit_page` (lines
272-296) from the raw links extracted on a page. -/
def visitInternalLinks (sitePath : String) (raw : List String) : Finset String :=
  (raw.filterMap (processLinkS sitePath)).toFinset

/-- Outcome of one `visit_page` attempt for a URL: the raw links
extracted on the page and the success flag.  A failing attempt returns
`(set(), False)` in the source, so its `raw` field is irrelevant. -/
structure VisitResult where
  raw : List String
  ok : Bool

/-- The session configuration fields of `Crawler.__init__` that the
modelled control flow reads. -/
structure CrawlConfig where
  site_path : String
  start_url : String
  max_pages : Nat
  retries : Nat

/-- The in-memory state of `Crawler.crawl` at a loop-iteration boundary:
`all_links` (KnownLinks), `visited_links`, `failed_links`,
`links_to_visit` (the Frontier), the `pages_visited` counter, and the
log of the Known-Links sets passed to the periodic
`save_urls_to_json` calls. -/
structure CrawlState where
  all_links : Finset String
  visited_links : Finset String
  failed_links : Finset String
  links_to_visit : Finset String
  pages_visited : Nat
  checkpoints : List (Finset String)
deriving DecidableEq

/-- The retry loop of `Crawler.crawl` lines 391-416: up to `retries`
attempts, short-circuiting at the first success, whose raw links are
returned.  `visits i` is the outcome of attempt `i`. -/
def firstSuccess (retries : Nat) (visits : Nat → VisitResult) : Option (List String) :=
  ((List.range retries).find? (fun i => (visits i).ok)).map (fun i => (visits i).raw)

/-- One iteration of the `while` loop of `Crawler.crawl` (lines
375-423), given the selected URL and the outcomes of its visit
attempts: remove the URL from the frontier; skip it if already visited;
otherwise mark it visited and count the page; on a successful attempt,
union the page's internal links into KnownLinks, add to the frontier
those not already visited/queued/failed, and record a periodic save
when `pages_visited` is a multiple of 5; if every attempt failed, add
the URL to `failed_links`. -/
def crawlIter (cfg : CrawlConfig) (visits : Nat → VisitResult) (url : String)
    (st : CrawlState) : CrawlState :=
  let frontier1 := st.links_to_visit.erase url
  if url ∈ st.visited_links then
    { st with links_to_visit := frontier1 }
  else
    let visited1 := insert url st.visited_links
    let pages1 := st.pages_visited + 1
    match firstSuccess cfg.retries visits with
    | some raw =>
      let links := visitInternalLinks cfg.site_path raw
      let all1 := st.all_links ∪ links
      let frontier2 := frontier1 ∪ links.filter
          (fun l => l ∉ visited1 ∧ l ∉ frontier1 ∧ l ∉ st.failed_links)
      let cps := if pages1 % 5 = 0 then st.checkpoints ++ [all1] else st.checkpoints
      { all_links := all1, visited_links := visited1, failed_links := st.failed_links,
        links_to_visit := frontier2, pages_visited := pages1, checkpoints := cps }
    | none =>
      { st with links_to_visit := frontier1, visited_links := visited1,
                pages_visited := pages1, failed_links := insert url st.failed_links }

/-- The crawl loop (lines 375-423) run for at most `fuel` further
iterations starting at iteration index `i`: it stops early when the
frontier is empty or `pages_visited` has reached `max_pages`.
`pick j` models the `random.choice` made at iteration `j` (indexed so
a different choice may be made each iteration) and `oracle url a` the
outcome of attempt `a` on `url`.  A smaller fuel than needed for
natural termination models a loop-fatal exception aborting the loop
after that many completed iterations. -/
def crawlRun (cfg : CrawlConfig) (oracle : String → Nat → VisitResult)
    (pick : Nat → Finset String → String) : Nat → Nat → CrawlState → CrawlState
  | _, 0, st => st
  | i, n + 1, st =>
    if st.links_to_visit.Nonempty ∧ st.pages_visited < cfg.max_pages then
      crawlRun cfg oracle pick (i + 1) n
        (crawlIter cfg (oracle (pick i st.links_to_visit)) (pick i st.links_to_visit) st)
    else st

/-- The checkpoint file as seen by `Crawler.load_existing_urls`: it can
be missing, present but unreadable or not valid JSON (any exception in
the `try` body), or present with a `urls` list (a file whose JSON lacks
the `urls` key behaves as `checkpoint []`, via `data.get("urls", [])`). -/
inductive FileState
  | missing
  | unreadable
  | checkpoint (urls : List String)
deriving DecidableEq

/-- The fallible part of `Crawler.load_existing_urls` (lines 40-46):
a missing file yields the empty list without raising; an unreadable or
unparsable file raises. -/
def readCheckpoint : FileState → Except Unit (List String)
  | .missing => .ok []
  | .unreadable => .error ()
  | .checkpoint urls => .ok urls

/-- `Crawler.load_existing_urls` (lines 38-49): any exception is caught
and the empty set returned, so the function is total. -/
def loadExistingUrls (fs : FileState) : Finset String :=
  match readCheckpoint fs with
  | .ok urls => urls.toFinset
  | .error _ => ∅

/-- The session-start state of `Crawler.crawl` (lines 350-365):
KnownLinks is seeded from the checkpoint; the frontier is the loaded
set when it is nonempty (Python truthiness of `existing_urls`), and
`{start_url}` otherwise. -/
def initState (cfg : CrawlConfig) (fs : FileState) : CrawlState :=
  let existing := loadExistingUrls fs
  { all_links := existing
    visited_links := ∅
    failed_links := ∅
    links_to_visit := if existing.Nonempty then existing else {cfg.start_url}
    pages_visited := 0
    checkpoints := [] }

/-- The crawl-loop state after `k` completed iterations of a session
(or at natural loop exit, whichever comes first). -/
def stateAfter (cfg : CrawlConfig) (fs : FileState) (oracle : String → Nat → VisitResult)
    (pick : Nat → Finset String → String) (k : Nat) : CrawlState :=
  crawlRun cfg oracle pick 0 k (initState cfg fs)

/-- The record written by `Crawler.save_urls_to_json` (lines 330-334):
the sorted unique URL list and its count (the wall-clock
`last_updated` field is not modelled). -/
structure CheckpointRecord where
  urls : List String
  count : Nat
deriving DecidableEq

/-- `Crawler.save_urls_to_json` (lines 320-345), modelled as the record
it writes; the source catches any write error, so the attempt itself
always happens. -/
def saveUrlsToJson (urls : Finset String) : CheckpointRecord :=
  { urls := urls.sort (· ≤ ·), count := urls.card }

/-- The dictionary returned by `Crawler.crawl` (lines 442-447),
extended with the checkpoint record written by the unconditional final
`save_urls_to_json(all_links)` of the `finally` block (line 440). -/
structure SessionResult where
  urls_count : Nat
  pages_visited : Nat
  failed_urls : Nat
  finalSave : CheckpointRecord
deriving DecidableEq

/-- A whole crawl session (`Crawler.crawl`): load the checkpoint, seed
the state, run the loop for `steps` iterations — where a `steps` smaller
than needed for natural termination models a loop-fatal exception
caught by the `except` clause — and then, in the `finally` block,
perform the final save of the full KnownLinks set and return the
result. -/
def crawlSession (cfg : CrawlConfig) (fs : FileState) (oracle : String → Nat → VisitResult)
    (pick : Nat → Finset String → String) (steps : Nat) : SessionResult :=
  let fin := stateAfter cfg fs oracle pick steps
  { urls_count := fin.all_links.card
    pages_visited := fin.pages_visited
    failed_urls := fin.failed_links.card
    finalSave := saveUrlsToJson fin.all_links }

/-- The trailing-slash strip inside the normalization (crawler.py
lines 284-285), factored out at the path level: remove the final
character when the path ends with `/`. -/
def stripSlash (path : Chars) : Chars :=
  if path.getLast? = some '/' then path.dropLast else path

/-- The query-string part of the normalized URL (crawler.py lines
288-292), factored out: empty when the query is empty or no parameter
is allowlisted, otherwise the allowlisted parameters rejoined with
`&`. -/
def keptQuery (q : Chars) : Chars :=
  if q = [] then []
  else if (splitAmp q).filter isImportant = [] then []
  else joinAmp ((splitAmp q).filter isImportant)

/-- Visit outcomes realizing the S S S S F S trace used for claim C8:
pages a-d and f succeed, page e fails; page d links to both e and f so
the crawl can continue past the failure. -/
def c8oracle (url : String) (_ : Nat) : VisitResult :=
  if url = "h://x/a" then ⟨["h://x/b"], true⟩
  else if url = "h://x/b" then ⟨["h://x/c"], true⟩
  else if url = "h://x/c" then ⟨["h://x/d"], true⟩
  else if url = "h://x/d" then ⟨["h://x/e", "h://x/f"], true⟩
  else if url = "h://x/e" then ⟨[], false⟩
  else ⟨[], true⟩

/-- The frontier selections of the C8 trace, in iteration order. -/
def c8pick (n : Nat) (_ : Finset String) : String :=
  ["h://x/a", "h://x/b", "h://x/c", "h://x/d", "h://x/e", "h://x/f"].getD n ""

/-- The visit outcomes of the C9 page graph: a chain in which every
visit succeeds and each page links to exactly one new in-scope page. -/
def c9oracle (url : String) (_ : Nat) : VisitResult :=
  if url = "h://x/a" then ⟨["h://x/b"], true⟩
  else if url = "h://x/b" then ⟨["h://x/c"], true⟩
  else if url = "h://x/c" then ⟨["h://x/d"], true⟩
  else ⟨[], true⟩

/-- The frontier selections of the C9 trace (each frontier is a
singleton along this chain, so this is the only possible behavior of
`random.choice`). -/
def c9pick (n : Nat) (_ : Finset String) : String :=
  ["h://x/a", "h://x/b", "h://x/c"].getD n ""

/-! ### Branch characterizations of the loop body -/

theorem crawlIter_of_visited (cfg : CrawlConfig) (visits : Nat → VisitResult)
    (url : String) (st : CrawlState) (h : url ∈ st.visited_links) :
    crawlIter cfg visits url st = { st with links_to_visit := st.links_to_visit.erase url } := by
  simp [crawlIter, h]

theorem crawlIter_of_success (cfg : CrawlConfig) (visits : Nat → VisitResult)
    (url : String) (st : CrawlState) (h : url ∉ st.visited_links)
    (raw : List String) (hfs : firstSuccess cfg.retries visits = some raw) :
    crawlIter cfg visits url st =
      { all_links := st.all_links ∪ visitInternalLinks cfg.site_path raw
        visited_links := insert url st.visited_links
        failed_links := st.failed_links
        links_to_visit := st.links_to_visit.erase url ∪
          (visitInternalLinks cfg.site_path raw).filter
            (fun l => l ∉ insert url st.visited_links ∧
              l ∉ st.links_to_visit.erase url ∧ l ∉ st.failed_links)
        pages_visited := st.pages_visited + 1
        checkpoints :=
          if (st.pages_visited + 1) % 5 = 0 then
            st.checkpoints ++ [st.all_links ∪ visitInternalLinks cfg.site_path raw]
          else st.checkpoints } := by
  simp [crawlIter, h, hfs]

theorem crawlIter_of_failure (cfg : CrawlConfig) (visits : Nat → VisitResult)
    (url : String) (st : CrawlState) (h : url ∉ st.visited_links)
    (hfs : firstSuccess cfg.retries visits = none) :
    crawlIter cfg visits url st =
      { st with links_to_visit := st.links_to_visit.erase url
                visited_links := insert url st.visited_links
                pages_visited := st.pages_visited + 1
                failed_links := insert url st.failed_links } := by
  simp [crawlIter, h, hfs]

/-! ### Step properties -/

theorem crawlIter_pages_le (cfg : CrawlConfig) (visits : Nat → VisitResult)
    (url : String) (st : CrawlState) :
    (crawlIter cfg visits url st).pages_visited ≤ st.pages_visited + 1 := by
  by_cases h : url ∈ st.visited_links
  · rw [crawlIter_of_visited cfg visits url st h]
    exact Nat.le_succ _
  · cases hfs : firstSuccess cfg.retries visits with
    | some raw => rw [crawlIter_of_success cfg visits url st h raw hfs]
    | none => rw [crawlIter_of_failure cfg visits url st h hfs]

theorem crawlIter_all_links_mono (cfg : CrawlConfig) (visits : Nat → VisitResult)
    (url : String) (st : CrawlState) :
    st.all_links ⊆ (crawlIter cfg visits url st).all_links := by
  by_cases h : url ∈ st.visited_links
  · rw [crawlIter_of_visited cfg visits url st h]
  · cases hfs : firstSuccess cfg.retries visits with
    | some raw =>
      rw [crawlIter_of_success cfg visits url st h raw hfs]
      exact Finset.subset_union_left
    | none => rw [crawlIter_of_failure cfg visits url st h hfs]

/-- The frontier-disjointness invariant is preserved by one loop
iteration, for an arbitrary selected URL and arbitrary visit
outcomes. -/
theorem crawlIter_disjoint (cfg : CrawlConfig) (visits : Nat → VisitResult)
    (url : String) (st : CrawlState)
    (h1 : Disjoint st.links_to_visit st.visited_links)
    (h2 : Disjoint st.links_to_visit st.failed_links) :
    Disjoint (crawlIter cfg visits url st).links_to_visit
        (crawlIter cfg visits url st).visited_links ∧
      Disjoint (crawlIter cfg visits url st).links_to_visit
        (crawlIter cfg visits url st).failed_links := by
  by_cases h : url ∈ st.visited_links
  · rw [crawlIter_of_visited cfg visits url st h]
    exact ⟨h1.mono_left (Finset.erase_subset url st.links_to_visit),
      h2.mono_left (Finset.erase_subset url st.links_to_visit)⟩
  · cases hfs : firstSuccess cfg.retries visits with
    | some raw =>
      rw [crawlIter_of_success cfg visits url st h raw hfs]
      constructor
      · rw [Finset.disjoint_left]
        intro a ha hmem
        rcases Finset.mem_union.1 ha with ha | ha
        · rcases Finset.mem_erase.1 ha with ⟨hne, hfr⟩
          rcases Finset.mem_insert.1 hmem with rfl | hmem
          · exact hne rfl
          · exact (Finset.disjoint_left.1 h1) hfr hmem
        · exact (Finset.mem_filter.1 ha).2.1 hmem
      · rw [Finset.disjoint_left]
        intro a ha hmem
        rcases Finset.mem_union.1 ha with ha | ha
        · exact (Finset.disjoint_left.1 h2) (Finset.mem_erase.1 ha).2 hmem
        · exact (Finset.mem_filter.1 ha).2.2.2 hmem
    | none =>
      rw [crawlIter_of_failure cfg visits url st h hfs]
      constructor
      · rw [Finset.disjoint_left]
        intro a ha hmem
        rcases Finset.mem_erase.1 ha with ⟨hne, hfr⟩
        rcases Finset.mem_insert.1 hmem with rfl | hmem
        · exact hne rfl
        · exact (Finset.disjoint_left.1 h1) hfr hmem
      · rw [Finset.disjoint_left]
        intro a ha hmem
        rcases Finset.mem_erase.1 ha with ⟨hne, hfr⟩
        rcases Finset.mem_insert.1 hmem with rfl | hmem
        · exact hne rfl
        · exact (Finset.disjoint_left.1 h2) hfr hmem

/-! ### Run properties -/

theorem crawlRun_of_stopped (cfg : CrawlConfig) (oracle : String → Nat → VisitResult)
    (pick : Nat → Finset String → String) (i n : Nat) (st : CrawlState)
    (h : ¬(st.links_to_visit.Nonempty ∧ st.pages_visited < cfg.max_pages)) :
    crawlRun cfg oracle pick i n st = st := by
  cases n with
  | zero => rfl
  | succ n => simp [crawlRun, h]

theorem crawlRun_add (cfg : CrawlConfig) (oracle : String → Nat → VisitResult)
    (pick : Nat → Finset String → String) (i a b : Nat) (st : CrawlState) :
    crawlRun cfg oracle pick i (a + b) st =
      crawlRun cfg oracle pick (i + a) b (crawlRun cfg oracle pick i a st) := by
  induction a generalizing i st with
  | zero => simp [crawlRun]
  | succ a ih =>
    by_cases h : st.links_to_visit.Nonempty ∧ st.pages_visited < cfg.max_pages
    · have hs : a + 1 + b = (a + b) + 1 := by omega
      rw [hs]
      simp only [crawlRun, h, if_true]
      rw [ih]
      have hi : i + 1 + a = i + (a + 1) := by omega
      rw [hi]
      simp
    · rw [crawlRun_of_stopped cfg oracle pick i (a + 1 + b) st h,
        crawlRun_of_stopped cfg oracle pick i (a + 1) st h,
        crawlRun_of_stopped cfg oracle pick (i + (a + 1)) b st h]

theorem crawlRun_pages_le (cfg : CrawlConfig) (oracle : String → Nat → VisitResult)
    (pick : Nat → Finset String → String) (i n : Nat) (st : CrawlState)
    (h : st.pages_visited ≤ cfg.max_pages) :
    (crawlRun cfg oracle pick i n st).pages_visited ≤ cfg.max_pages := by
  induction n generalizing i st with
  | zero => exact h
  | succ n ih =>
    by_cases hc : st.links_to_visit.Nonempty ∧ st.pages_visited < cfg.max_pages
    · simp only [crawlRun, hc, if_true]
      refine ih _ _ ?_
      calc (crawlIter cfg (oracle (pick i st.links_to_visit)) (pick i st.links_to_visit) st).pages_visited
          ≤ st.pages_visited + 1 := crawlIter_pages_le _ _ _ _
        _ ≤ cfg.max_pages := hc.2
    · rw [crawlRun_of_stopped cfg oracle pick i (n + 1) st hc]
      exact h

theorem crawlRun_disjoint (cfg : CrawlConfig) (oracle : String → Nat → VisitResult)
    (pick : Nat → Finset String → String) (i n : Nat) (st : CrawlState)
    (h1 : Disjoint st.links_to_visit st.visited_links)
    (h2 : Disjoint st.links_to_visit st.failed_links) :
    Disjoint (crawlRun cfg oracle pick i n st).links_to_visit
        (crawlRun cfg oracle pick i n st).visited_links ∧
      Disjoint (crawlRun cfg oracle pick i n st).links_to_visit
        (crawlRun cfg oracle pick i n st).failed_links := by
  induction n generalizing i st with
  | zero => exact ⟨h1, h2⟩
  | succ n ih =>
    by_cases hc : st.links_to_visit.Nonempty ∧ st.pages_visited < cfg.max_pages
    · simp only [crawlRun, hc, if_true]
      have hd := crawlIter_disjoint cfg (oracle (pick i st.links_to_visit))
        (pick i st.links_to_visit) st h1 h2
      exact ih _ _ hd.1 hd.2
    · rw [crawlRun_of_stopped cfg oracle pick i (n + 1) st hc]
      exact ⟨h1, h2⟩

theorem crawlRun_all_links_mono (cfg : CrawlConfig) (oracle : String → Nat → VisitResult)
    (pick : Nat → Finset String → String) (i n : Nat) (st : CrawlState) :
    st.all_links ⊆ (crawlRun cfg oracle pick i n st).all_links := by
  induction n generalizing i st with
  | zero => exact Finset.Subset.refl _
  | succ n ih =>
    by_cases hc : st.links_to_visit.Nonempty ∧ st.pages_visited < cfg.max_pages
    · simp only [crawlRun, hc, if_true]
      exact (crawlIter_all_links_mono cfg _ _ st).trans (ih _ _)
    · rw [crawlRun_of_stopped cfg oracle pick i (n + 1) st hc]

/-! ### Claim C1 -/

/-- C1: at every loop-iteration boundary of every crawl session — any
configuration, checkpoint file, visit outcomes and random selections,
after any number `k` of iterations — the Frontier (`links_to_visit`) is
disjoint from Visited (`visited_links`) and disjoint from Failed
(`failed_links`). -/
theorem c1_frontier_disjoint_visited_failed (cfg : CrawlConfig) (fs : FileState)
    (oracle : String → Nat → VisitResult) (pick : Nat → Finset String → String) (k : Nat) :
    Disjoint (stateAfter cfg fs oracle pick k).links_to_visit
        (stateAfter cfg fs oracle pick k).visited_links ∧
      Disjoint (stateAfter cfg fs oracle pick k).links_to_visit
        (stateAfter cfg fs oracle pick k).failed_links := by
  refine crawlRun_disjoint cfg oracle pick 0 k (initState cfg fs) ?_ ?_ <;>
    simp [initState]

/-! ### Claim C2 -/

/-- C2: in every reachable state of every crawl session, the
`pages_visited` counter never exceeds `max_pages`: the loop guard
stops selecting URLs once the cap is reached, even with a nonempty
frontier. -/
theorem c2_pages_visited_le_max_pages (cfg : CrawlConfig) (fs : FileState)
    (oracle : String → Nat → VisitResult) (pick : Nat → Finset String → String) (k : Nat) :
    (stateAfter cfg fs oracle pick k).pages_visited ≤ cfg.max_pages := by
  refine crawlRun_pages_le cfg oracle pick 0 k (initState cfg fs) ?_
  simp [initState]

/-! ### Claim C3 -/

/-- C3: every crawl session — including one whose loop is cut short
after `steps` iterations by a loop-fatal exception — performs the final
checkpoint save of the full KnownLinks set in the guaranteed-cleanup
path: the session result's final save is exactly
`save_urls_to_json(all_links)` for the state the loop reached, and
every URL discovered by any earlier iteration boundary `j ≤ steps` is
contained in that final save, so URLs discovered before an abort are
never discarded. -/
theorem c3_final_save_always_attempted (cfg : CrawlConfig) (fs : FileState)
    (oracle : String → Nat → VisitResult) (pick : Nat → Finset String → String)
    (steps j : Nat) (u : String) (hj : j ≤ steps)
    (hu : u ∈ (stateAfter cfg fs oracle pick j).all_links) :
    (crawlSession cfg fs oracle pick steps).finalSave =
        saveUrlsToJson (stateAfter cfg fs oracle pick steps).all_links ∧
      u ∈ (crawlSession cfg fs oracle pick steps).finalSave.urls := by
  have hsub : (stateAfter cfg fs oracle pick j).all_links ⊆
      (stateAfter cfg fs oracle pick steps).all_links := by
    have hsplit : steps = j + (steps - j) := by omega
    have h2 : stateAfter cfg fs oracle pick steps =
        crawlRun cfg oracle pick (0 + j) (steps - j) (stateAfter cfg fs oracle pick j) := by
      rw [stateAfter, stateAfter, ← crawlRun_add, ← hsplit]
    rw [h2]
    exact crawlRun_all_links_mono cfg oracle pick (0 + j) (steps - j) _
  refine ⟨rfl, ?_⟩
  show u ∈ (saveUrlsToJson (stateAfter cfg fs oracle pick steps).all_links).urls
  rw [saveUrlsToJson]
  rw [Finset.mem_sort]
  exact hsub hu

/-- Witness for C3: a concrete session resuming from a one-URL
checkpoint whose only visit fails, aborted after one iteration, still
final-saves a record containing that URL. -/
theorem c3_final_save_witness :
    (0 ≤ 1 ∧ "h://x/a" ∈ (stateAfter ⟨"x", "h://x/a", 3, 2⟩ (.checkpoint ["h://x/a"])
        (fun _ _ => ⟨[], false⟩) (fun _ _ => "h://x/a") 0).all_links) ∧
      (crawlSession ⟨"x", "h://x/a", 3, 2⟩ (.checkpoint ["h://x/a"])
          (fun _ _ => ⟨[], false⟩) (fun _ _ => "h://x/a") 1).finalSave =
        saveUrlsToJson (stateAfter ⟨"x", "h://x/a", 3, 2⟩ (.checkpoint ["h://x/a"])
          (fun _ _ => ⟨[], false⟩) (fun _ _ => "h://x/a") 1).all_links ∧
      "h://x/a" ∈ (crawlSession ⟨"x", "h://x/a", 3, 2⟩ (.checkpoint ["h://x/a"])
          (fun _ _ => ⟨[], false⟩) (fun _ _ => "h://x/a") 1).finalSave.urls := by
  refine ⟨⟨Nat.zero_le 1, by decide⟩, ?_, ?_⟩
  · exact (c3_final_save_always_attempted ⟨"x", "h://x/a", 3, 2⟩ (.checkpoint ["h://x/a"])
      (fun _ _ => ⟨[], false⟩) (fun _ _ => "h://x/a") 1 0 "h://x/a"
      (Nat.zero_le 1) (by decide)).1
  · exact (c3_final_save_always_attempted ⟨"x", "h://x/a", 3, 2⟩ (.checkpoint ["h://x/a"])
      (fun _ _ => ⟨[], false⟩) (fun _ _ => "h://x/a") 1 0 "h://x/a"
      (Nat.zero_le 1) (by decide)).2

/-! ### Claim C10 -/

/-- C10: `load_existing_urls` never raises at the session interface —
a missing file, an unreadable or invalid-JSON file, and a checkpoint
with an empty `urls` list all yield the empty set — and in each of
these cases the session starts as a fresh crawl whose initial Frontier
is exactly the start URL. -/
theorem c10_load_errors_yield_fresh_crawl (cfg : CrawlConfig) (fs : FileState)
    (h : fs = .missing ∨ fs = .unreadable ∨ fs = .checkpoint []) :
    loadExistingUrls fs = ∅ ∧
      (initState cfg fs).links_to_visit = {cfg.start_url} := by
  have hempty : loadExistingUrls fs = ∅ := by
    rcases h with rfl | rfl | rfl <;> simp [loadExistingUrls, readCheckpoint]
  refine ⟨hempty, ?_⟩
  simp [initState, hempty]

/-- Witness for C10: an existing checkpoint file whose `urls` list is
empty behaves exactly like a missing file: a fresh crawl seeded with
the start URL. -/
theorem c10_witness :
    ((.checkpoint [] : FileState) = .missing ∨ (.checkpoint [] : FileState) = .unreadable ∨
        (.checkpoint [] : FileState) = .checkpoint []) ∧
      loadExistingUrls (.checkpoint []) = ∅ ∧
      (initState ⟨"x", "h://x/a", 3, 2⟩ (.checkpoint [])).links_to_visit = {"h://x/a"} :=
  ⟨Or.inr (Or.inr rfl),
   c10_load_errors_yield_fresh_crawl ⟨"x", "h://x/a", 3, 2⟩ (.checkpoint [])
     (Or.inr (Or.inr rfl))⟩

/-! ### Claim C7 -/

/-- Counterexample for C7 as stated: a prior checkpoint can exist with
an empty `urls` list; the claim then requires the initial Frontier to
equal the (empty) persisted KnownLinks set, but the code seeds it with
the start URL instead (`if existing_urls:` tests nonemptiness, not
file existence). -/
theorem c7_counterexample_empty_checkpoint :
    loadExistingUrls (.checkpoint []) = ∅ ∧
      "h://x/a" ∈ (initState ⟨"x", "h://x/a", 3, 2⟩ (.checkpoint [])).links_to_visit ∧
      (initState ⟨"x", "h://x/a", 3, 2⟩ (.checkpoint [])).links_to_visit ≠
        loadExistingUrls (.checkpoint []) := by decide

/-- C7 (amended): if the loaded checkpoint contains at least one URL,
the initial Frontier equals the entire persisted KnownLinks set;
if it loads as empty (no checkpoint, or an empty one), the initial
Frontier is exactly the start URL. -/
theorem c7_frontier_seed (cfg : CrawlConfig) (fs : FileState) :
    ((loadExistingUrls fs).Nonempty →
        (initState cfg fs).links_to_visit = loadExistingUrls fs) ∧
      (loadExistingUrls fs = ∅ →
        (initState cfg fs).links_to_visit = {cfg.start_url}) := by
  constructor
  · intro h
    simp only [initState]
    rw [if_pos h]
  · intro h
    simp [initState, h]

/-- Witness for C7: resuming from a checkpoint holding URLs A and B
with `start_url = A` seeds the Frontier with both A and B, matching the
claim's own example. -/
theorem c7_frontier_seed_witness :
    (loadExistingUrls (.checkpoint ["h://x/a", "h://x/b"])).Nonempty ∧
      (initState ⟨"x", "h://x/a", 3, 2⟩
          (.checkpoint ["h://x/a", "h://x/b"])).links_to_visit =
        loadExistingUrls (.checkpoint ["h://x/a", "h://x/b"]) :=
  ⟨by decide,
   (c7_frontier_seed ⟨"x", "h://x/a", 3, 2⟩ (.checkpoint ["h://x/a", "h://x/b"])).1
     (by decide)⟩

/-! ### Claim C4 -/

/-- Counterexample for C4 as stated: a URL whose every retry attempt
fails ends up in `failed_links` but also in `visited_links`, because
`Crawler.crawl` adds the selected URL to `visited_links` before the
retry loop, regardless of the outcome; the claim's "not a member of
Visited" is false. -/
theorem c4_counterexample_failed_url_in_visited :
    "h://x/u" ∈ (stateAfter ⟨"x", "h://x/u", 10, 2⟩ .missing
        (fun _ _ => ⟨[], false⟩) (fun _ _ => "h://x/u") 1).failed_links ∧
      "h://x/u" ∈ (stateAfter ⟨"x", "h://x/u", 10, 2⟩ .missing
        (fun _ _ => ⟨[], false⟩) (fun _ _ => "h://x/u") 1).visited_links := by decide

/-- C4 (amended): a freshly selected URL is always added to Visited,
regardless of outcome; when every retry attempt fails it is
additionally added to Failed and does not remain in the Frontier,
while a successful visit leaves Failed unchanged. -/
theorem c4_failed_url_recorded (cfg : CrawlConfig) (visits : Nat → VisitResult)
    (url : String) (st : CrawlState) (h : url ∉ st.visited_links) :
    (firstSuccess cfg.retries visits = none →
        (crawlIter cfg visits url st).failed_links = insert url st.failed_links ∧
          (crawlIter cfg visits url st).visited_links = insert url st.visited_links ∧
          url ∉ (crawlIter cfg visits url st).links_to_visit) ∧
      (∀ raw, firstSuccess cfg.retries visits = some raw →
        (crawlIter cfg visits url st).failed_links = st.failed_links ∧
          (crawlIter cfg visits url st).visited_links = insert url st.visited_links) := by
  constructor
  · intro hfs
    rw [crawlIter_of_failure cfg visits url st h hfs]
    exact ⟨rfl, rfl, Finset.not_mem_erase url st.links_to_visit⟩
  · intro raw hfs
    rw [crawlIter_of_success cfg visits url st h raw hfs]
    exact ⟨rfl, rfl⟩

/-- Witness for C4 (amended): a URL whose two attempts both fail is
recorded in Failed and in Visited and leaves the Frontier. -/
theorem c4_failed_url_recorded_witness :
    ("h://x/u" ∉ (∅ : Finset String)) ∧
      (crawlIter ⟨"x", "h://x/u", 10, 2⟩ (fun _ => ⟨[], false⟩) "h://x/u"
          ⟨∅, ∅, ∅, {"h://x/u"}, 0, []⟩).failed_links = insert "h://x/u" ∅ ∧
      (crawlIter ⟨"x", "h://x/u", 10, 2⟩ (fun _ => ⟨[], false⟩) "h://x/u"
          ⟨∅, ∅, ∅, {"h://x/u"}, 0, []⟩).visited_links = insert "h://x/u" ∅ ∧
      "h://x/u" ∉ (crawlIter ⟨"x", "h://x/u", 10, 2⟩ (fun _ => ⟨[], false⟩) "h://x/u"
          ⟨∅, ∅, ∅, {"h://x/u"}, 0, []⟩).links_to_visit :=
  ⟨by decide,
   (c4_failed_url_recorded ⟨"x", "h://x/u", 10, 2⟩ (fun _ => ⟨[], false⟩) "h://x/u"
      ⟨∅, ∅, ∅, {"h://x/u"}, 0, []⟩ (by decide)).1 (by decide)⟩

/-! ### Claim C6 -/

/-- Counterexample for C6 as stated: the source tests
`link.endswith(ext)` on the whole link string (crawler.py line 281),
not on the parsed path, so a link whose path ends with a denylisted
extension but which carries a query string — here
`h://x/i.jpg?id=1`, whose path `/i.jpg` ends with `.jpg` — passes the
filter and is added to the Frontier after processing a page containing
it. -/
theorem c6_counterexample_query_after_extension :
    ".jpg".toList.isSuffixOf (urlparseChars "h://x/i.jpg?id=1".toList).path = true ∧
      processLinkS "x" "h://x/i.jpg?id=1" = some "h://x/i.jpg?id=1" ∧
      "h://x/i.jpg?id=1" ∈ (stateAfter ⟨"x", "h://x/s", 10, 1⟩ .missing
        (fun _ _ => ⟨["h://x/i.jpg?id=1"], true⟩) (fun _ _ => "h://x/s") 1).links_to_visit := by
  decide

/-- C6 (amended): a raw link whose resolved host is not exactly
`site_path` or `www.<site_path>`, or whose full link string ends with
a denylisted extension, is rejected by the filter and contributes
nothing to the internal links of a page visit — hence nothing to the
Frontier or KnownLinks; the extension test however examines the whole
link string, so a denylisted extension followed by a query string does
not cause rejection. -/
theorem c6_rejected_link_contributes_nothing (sitePath l : String) (raws : List String)
    (h : hostOk sitePath.toList (urlparseChars l.toList) = false ∨
      endsWithDenied l.toList = true) :
    processLinkS sitePath l = none ∧
      visitInternalLinks sitePath (l :: raws) = visitInternalLinks sitePath raws := by
  have hnone : processLinkS sitePath l = none := by
    simp only [String.toList] at h
    rcases h with h | h <;> simp [processLinkS, processLink, h]
  exact ⟨hnone, by simp [visitInternalLinks, List.filterMap_cons, hnone]⟩

/-- Witness for C6 (amended): a cross-host link and a page also
containing an in-scope link — the cross-host link contributes nothing. -/
theorem c6_rejected_link_witness :
    (hostOk "x".toList (urlparseChars "h://other/p".toList) = false ∨
        endsWithDenied "h://other/p".toList = true) ∧
      processLinkS "x" "h://other/p" = none ∧
      visitInternalLinks "x" ["h://other/p", "h://x/ok"] =
        visitInternalLinks "x" ["h://x/ok"] :=
  ⟨Or.inl (by decide),
   c6_rejected_link_contributes_nothing "x" "h://other/p" ["h://x/ok"]
     (Or.inl (by decide))⟩

/-! ### Claim C8 -/

/-- Counterexample for C8 as stated: after six visits of which five
succeeded (the fifth page failed), the count of successful visits is 5
— a multiple of 5 — yet no periodic checkpoint write has occurred at
any point, because the source gates the save on
`pages_visited % 5 == 0`, which counts failed visits too: at total
page 5 the visit failed (no save branch), and at total page 6 the
modulus is not 0. -/
theorem c8_counterexample_five_successes_no_save :
    (stateAfter ⟨"x", "h://x/a", 10, 1⟩ .missing c8oracle c8pick 6).pages_visited = 6 ∧
      (stateAfter ⟨"x", "h://x/a", 10, 1⟩ .missing c8oracle c8pick 6).failed_links.card = 1 ∧
      (stateAfter ⟨"x", "h://x/a", 10, 1⟩ .missing c8oracle c8pick 6).pages_visited -
        (stateAfter ⟨"x", "h://x/a", 10, 1⟩ .missing c8oracle c8pick 6).failed_links.card = 5 ∧
      (stateAfter ⟨"x", "h://x/a", 10, 1⟩ .missing c8oracle c8pick 6).checkpoints = [] := by
  decide

/-- C8 (amended): a periodic checkpoint write of the KnownLinks set
occurs exactly on a successful visit whose updated `pages_visited`
counter — which counts failed visits as well — is a multiple of 5; a
failed visit never triggers a save, and neither does a successful one
at a non-multiple of 5. -/
theorem c8_periodic_save_cadence (cfg : CrawlConfig) (visits : Nat → VisitResult)
    (url : String) (st : CrawlState) (h : url ∉ st.visited_links) :
    ((firstSuccess cfg.retries visits).isSome = true → (st.pages_visited + 1) % 5 = 0 →
        (crawlIter cfg visits url st).checkpoints =
          st.checkpoints ++ [(crawlIter cfg visits url st).all_links]) ∧
      (firstSuccess cfg.retries visits = none →
        (crawlIter cfg visits url st).checkpoints = st.checkpoints) ∧
      ((st.pages_visited + 1) % 5 ≠ 0 →
        (crawlIter cfg visits url st).checkpoints = st.checkpoints) := by
  refine ⟨?_, ?_, ?_⟩
  · intro hs hmod
    obtain ⟨raw, hfs⟩ := Option.isSome_iff_exists.1 hs
    rw [crawlIter_of_success cfg visits url st h raw hfs]
    simp [hmod]
  · intro hfs
    rw [crawlIter_of_failure cfg visits url st h hfs]
  · intro hmod
    cases hfs : firstSuccess cfg.retries visits with
    | some raw =>
      rw [crawlIter_of_success cfg visits url st h raw hfs]
      simp [hmod]
    | none =>
      rw [crawlIter_of_failure cfg visits url st h hfs]

/-- Witness for C8 (amended): a successful fifth visit triggers the
periodic save of the KnownLinks set. -/
theorem c8_periodic_save_witness :
    ("h://x/u" ∉ (∅ : Finset String)) ∧
      (firstSuccess 1 (fun _ => ⟨[], true⟩)).isSome = true ∧ (4 + 1) % 5 = 0 ∧
      (crawlIter ⟨"x", "h://x/u", 10, 1⟩ (fun _ => ⟨[], true⟩) "h://x/u"
          ⟨∅, ∅, ∅, {"h://x/u"}, 4, []⟩).checkpoints =
        [] ++ [(crawlIter ⟨"x", "h://x/u", 10, 1⟩ (fun _ => ⟨[], true⟩) "h://x/u"
          ⟨∅, ∅, ∅, {"h://x/u"}, 4, []⟩).all_links] :=
  ⟨by decide, by decide, by decide,
   (c8_periodic_save_cadence ⟨"x", "h://x/u", 10, 1⟩ (fun _ => ⟨[], true⟩) "h://x/u"
      ⟨∅, ∅, ∅, {"h://x/u"}, 4, []⟩ (by decide)).1 (by decide) (by decide)⟩

/-! ### Claim C9 -/

/-- Counterexample for C9 as stated: in the fresh three-page chain
crawl the session visits exactly 3 pages, but the final checkpoint
does not contain all 3 visited URLs — the start URL `h://x/a` is
visited yet absent, because KnownLinks only ever receives links
discovered on pages, never the visited URL itself. -/
theorem c9_counterexample_start_url_not_saved :
    (crawlSession ⟨"x", "h://x/a", 3, 1⟩ .missing c9oracle c9pick 5).pages_visited = 3 ∧
      "h://x/a" ∈ (stateAfter ⟨"x", "h://x/a", 3, 1⟩ .missing c9oracle c9pick 5).visited_links ∧
      "h://x/a" ∉ (crawlSession ⟨"x", "h://x/a", 3, 1⟩ .missing c9oracle c9pick 5).finalSave.urls := by
  refine ⟨by decide, by decide, ?_⟩
  have h : (crawlSession ⟨"x", "h://x/a", 3, 1⟩ .missing c9oracle c9pick 5).finalSave.urls =
      Finset.sort (· ≤ ·)
        (stateAfter ⟨"x", "h://x/a", 3, 1⟩ .missing c9oracle c9pick 5).all_links := rfl
  rw [h, Finset.mem_sort]
  decide

/-- C9 (amended): with `max_pages = 3`, no prior checkpoint, and a page
graph where every visit succeeds and each page links to exactly one new
in-scope page, a fresh session visits exactly 3 pages, and the final
checkpoint's urls contain every discovered in-scope link — the visited
URLs other than the start URL, plus the link discovered beyond the cap
that was never visited — while the start URL itself is absent from the
checkpoint because only links discovered on pages enter KnownLinks. -/
theorem c9_bounded_crawl_checkpoint_content :
    (crawlSession ⟨"x", "h://x/a", 3, 1⟩ .missing c9oracle c9pick 5).pages_visited = 3 ∧
      (stateAfter ⟨"x", "h://x/a", 3, 1⟩ .missing c9oracle c9pick 5).visited_links.card = 3 ∧
      "h://x/a" ∈ (stateAfter ⟨"x", "h://x/a", 3, 1⟩ .missing c9oracle c9pick 5).visited_links ∧
      "h://x/b" ∈ (stateAfter ⟨"x", "h://x/a", 3, 1⟩ .missing c9oracle c9pick 5).visited_links ∧
      "h://x/c" ∈ (stateAfter ⟨"x", "h://x/a", 3, 1⟩ .missing c9oracle c9pick 5).visited_links ∧
      "h://x/d" ∉ (stateAfter ⟨"x", "h://x/a", 3, 1⟩ .missing c9oracle c9pick 5).visited_links ∧
      "h://x/b" ∈ (crawlSession ⟨"x", "h://x/a", 3, 1⟩ .missing c9oracle c9pick 5).finalSave.urls ∧
      "h://x/c" ∈ (crawlSession ⟨"x", "h://x/a", 3, 1⟩ .missing c9oracle c9pick 5).finalSave.urls ∧
      "h://x/d" ∈ (crawlSession ⟨"x", "h://x/a", 3, 1⟩ .missing c9oracle c9pick 5).finalSave.urls ∧
      (crawlSession ⟨"x", "h://x/a", 3, 1⟩ .missing c9oracle c9pick 5).finalSave.count = 3 := by
  have h : (crawlSession ⟨"x", "h://x/a", 3, 1⟩ .missing c9oracle c9pick 5).finalSave.urls =
      Finset.sort (· ≤ ·)
        (stateAfter ⟨"x", "h://x/a", 3, 1⟩ .missing c9oracle c9pick 5).all_links := rfl
  refine ⟨by decide, by decide, by decide, by decide, by decide, by decide, ?_, ?_, ?_, by decide⟩
    <;> rw [h, Finset.mem_sort] <;> decide

/-! ### Properties of the parsing helpers (for Claim C5) -/

theorem spanNot_append (stops a b : Chars) (h : ∀ c ∈ a, c ∉ stops) :
    spanNot stops (a ++ b) = (a ++ (spanNot stops b).1, (spanNot stops b).2) := by
  induction a with
  | nil => simp
  | cons c t ih =>
    have hc : c ∉ stops := h c (List.mem_cons_self c t)
    have ht : ∀ x ∈ t, x ∉ stops := fun x hx => h x (List.mem_cons_of_mem c hx)
    simp [spanNot, hc, ih ht]

theorem mem_spanNot_fst (stops l : Chars) :
    ∀ c ∈ (spanNot stops l).1, c ∈ l ∧ c ∉ stops := by
  induction l with
  | nil => simp [spanNot]
  | cons d t ih =>
    by_cases hd : d ∈ stops
    · simp [spanNot, hd]
    · intro c hc
      simp only [spanNot, hd, if_neg, ite_false] at hc
      rcases List.mem_cons.1 hc with rfl | hc
      · exact ⟨List.mem_cons_self c t, hd⟩
      · obtain ⟨h1, h2⟩ := ih c hc
        exact ⟨List.mem_cons_of_mem d h1, h2⟩

theorem spanNot_all (stops l : Chars) (h : ∀ c ∈ l, c ∉ stops) :
    spanNot stops l = (l, []) := by
  have h2 := spanNot_append stops l [] h
  simpa [spanNot] using h2

theorem spanNot_snd_shape (stops l : Chars) :
    (spanNot stops l).2 = [] ∨
      ∃ c t, (spanNot stops l).2 = c :: t ∧ c ∈ stops := by
  induction l with
  | nil => exact Or.inl rfl
  | cons d t ih =>
    by_cases hd : d ∈ stops
    · exact Or.inr ⟨d, t, by simp [spanNot, hd], hd⟩
    · simpa [spanNot, hd] using ih

theorem splitAmp_ne_nil (l : Chars) : splitAmp l ≠ [] := by
  induction l with
  | nil => simp [splitAmp]
  | cons c t ih =>
    by_cases hc : c = '&'
    · simp [splitAmp, hc]
    · cases h : splitAmp t with
      | nil => exact absurd h ih
      | cons p ps => simp [splitAmp, hc, h]

theorem splitAmp_head_tail (l : Chars) :
    splitAmp l = (splitAmp l).headI :: (splitAmp l).tail := by
  cases h : splitAmp l with
  | nil => exact absurd h (splitAmp_ne_nil l)
  | cons p ps => simp

theorem splitAmp_append (p l : Chars) (h : '&' ∉ p) :
    splitAmp (p ++ l) = (p ++ (splitAmp l).headI) :: (splitAmp l).tail := by
  induction p with
  | nil => simpa using splitAmp_head_tail l
  | cons c t ih =>
    have hc : ¬c = '&' := fun hcontra => h (hcontra ▸ List.mem_cons_self c t)
    have ht : '&' ∉ t := fun hx => h (List.mem_cons_of_mem c hx)
    simp [splitAmp, hc, ih ht]

theorem splitAmp_single (p : Chars) (h : '&' ∉ p) : splitAmp p = [p] := by
  have h2 := splitAmp_append p [] h
  simpa [splitAmp] using h2

theorem mem_splitAmp_subset (l : Chars) :
    ∀ q ∈ splitAmp l, ∀ c ∈ q, c ∈ l := by
  induction l with
  | nil => simp [splitAmp]
  | cons d t ih =>
    by_cases hd : d = '&'
    · subst hd
      simp only [splitAmp, if_pos rfl]
      intro q hq c hc
      rcases List.mem_cons.1 hq with rfl | hq
      · exact absurd hc (List.not_mem_nil c)
      · exact List.mem_cons_of_mem _ (ih q hq c hc)
    · cases h : splitAmp t with
      | nil => exact absurd h (splitAmp_ne_nil t)
      | cons p ps =>
        simp only [splitAmp, hd, if_neg, ite_false, h]
        intro q hq c hc
        rcases List.mem_cons.1 hq with rfl | hq
        · rcases List.mem_cons.1 hc with rfl | hc
          · exact List.mem_cons_self c t
          · exact List.mem_cons_of_mem d (ih p (h ▸ List.mem_cons_self p ps) c hc)
        · exact List.mem_cons_of_mem d (ih q (h ▸ List.mem_cons_of_mem p hq) c hc)

theorem not_amp_mem_splitAmp (l : Chars) : ∀ q ∈ splitAmp l, '&' ∉ q := by
  induction l with
  | nil => simp [splitAmp]
  | cons d t ih =>
    by_cases hd : d = '&'
    · subst hd
      simp only [splitAmp, if_pos rfl]
      intro q hq
      rcases List.mem_cons.1 hq with rfl | hq
      · exact List.not_mem_nil '&'
      · exact ih q hq
    · cases h : splitAmp t with
      | nil => exact absurd h (splitAmp_ne_nil t)
      | cons p ps =>
        simp only [splitAmp, hd, if_neg, ite_false, h]
        intro q hq
        rcases List.mem_cons.1 hq with rfl | hq
        · intro hc
          rcases List.mem_cons.1 hc with hc | hc
          · exact hd hc.symm
          · exact ih p (h ▸ List.mem_cons_self p ps) hc
        · exact ih q (h ▸ List.mem_cons_of_mem p hq)

theorem mem_joinAmp (ps : List Chars) :
    ∀ c ∈ joinAmp ps, c = '&' ∨ ∃ q ∈ ps, c ∈ q := by
  induction ps with
  | nil => simp [joinAmp]
  | cons p ps ih =>
    cases ps with
    | nil =>
      intro c hc
      exact Or.inr ⟨p, List.mem_cons_self p [], by simpa [joinAmp] using hc⟩
    | cons r rs =>
      intro c hc
      rw [joinAmp] at hc
      rcases List.mem_append.1 hc with hc | hc
      · exact Or.inr ⟨p, List.mem_cons_self p _, hc⟩
      · rcases List.mem_cons.1 hc with rfl | hc
        · exact Or.inl rfl
        · rcases ih c hc with h | ⟨q, hq, hcq⟩
          · exact Or.inl h
          · exact Or.inr ⟨q, List.mem_cons_of_mem p hq, hcq⟩

theorem joinAmp_ne_nil (ps : List Chars) (h1 : ps ≠ [])
    (h2 : ∀ q ∈ ps, q ≠ []) : joinAmp ps ≠ [] := by
  cases ps with
  | nil => exact absurd rfl h1
  | cons p ps =>
    cases ps with
    | nil => simpa [joinAmp] using h2 p (List.mem_cons_self p [])
    | cons r rs => simp [joinAmp]

theorem splitAmp_joinAmp (ps : List Chars) (h1 : ps ≠ [])
    (h2 : ∀ q ∈ ps, '&' ∉ q) : splitAmp (joinAmp ps) = ps := by
  induction ps with
  | nil => exact absurd rfl h1
  | cons p ps ih =>
    cases ps with
    | nil => rw [joinAmp]; exact splitAmp_single p (h2 p (List.mem_cons_self p []))
    | cons r rs =>
      rw [joinAmp, splitAmp_append p ('&' :: joinAmp (r :: rs))
        (h2 p (List.mem_cons_self p _))]
      have hsplit : splitAmp ('&' :: joinAmp (r :: rs)) =
          [] :: splitAmp (joinAmp (r :: rs)) := by simp [splitAmp]
      rw [hsplit]
      have hrec : splitAmp (joinAmp (r :: rs)) = r :: rs :=
        ih (by simp) (fun q hq => h2 q (List.mem_cons_of_mem p hq))
      simp [hrec]

theorem isImportant_ne_nil (q : Chars) (h : isImportant q = true) : q ≠ [] := by
  intro hnil
  subst hnil
  exact absurd h (by decide)

theorem keptQuery_no_hash (q : Chars) (hq : '#' ∉ q) : '#' ∉ keptQuery q := by
  rw [keptQuery]
  by_cases h1 : q = []
  · simp [h1]
  · by_cases h2 : (splitAmp q).filter isImportant = []
    · simp [h1, h2]
    · simp only [h1, h2, if_neg, ite_false]
      intro hc
      rcases mem_joinAmp _ '#' hc with h | ⟨r, hr, hcr⟩
      · exact absurd h (by decide)
      · exact hq (mem_splitAmp_subset q r (List.mem_of_mem_filter hr) '#' hcr)

theorem keptQuery_idem (q : Chars) : keptQuery (keptQuery q) = keptQuery q := by
  by_cases h1 : q = []
  · simp [keptQuery, h1]
  · by_cases h2 : (splitAmp q).filter isImportant = []
    · simp [keptQuery, h1, h2]
    · have hkq : keptQuery q = joinAmp ((splitAmp q).filter isImportant) := by
        rw [keptQuery, if_neg h1, if_neg h2]
      have himp_no_amp : ∀ r ∈ (splitAmp q).filter isImportant, '&' ∉ r :=
        fun r hr => not_amp_mem_splitAmp q r (List.mem_of_mem_filter hr)
      have himp_ne : ∀ r ∈ (splitAmp q).filter isImportant, r ≠ [] :=
        fun r hr => isImportant_ne_nil r (List.of_mem_filter hr)
      have hjoin_ne : joinAmp ((splitAmp q).filter isImportant) ≠ [] :=
        joinAmp_ne_nil _ h2 himp_ne
      have hsplit : splitAmp (joinAmp ((splitAmp q).filter isImportant)) =
          (splitAmp q).filter isImportant :=
        splitAmp_joinAmp _ h2 himp_no_amp
      have hfilter : ((splitAmp q).filter isImportant).filter isImportant =
          (splitAmp q).filter isImportant :=
        List.filter_eq_self.2 (fun r hr => List.of_mem_filter hr)
      rw [hkq, keptQuery, if_neg hjoin_ne, hsplit, hfilter, if_neg h2]

theorem stripSlash_of_getLast_ne (path : Chars)
    (h : path.getLast? ≠ some '/') : stripSlash path = path := by
  rw [stripSlash, if_neg h]

theorem stripSlash_shape (path : Chars)
    (h : path = [] ∨ ∃ t, path = '/' :: t) :
    stripSlash path = [] ∨ ∃ t, stripSlash path = '/' :: t := by
  rcases h with rfl | ⟨t, rfl⟩
  · left; simp [stripSlash]
  · rw [stripSlash]
    by_cases hsl : ('/' :: t).getLast? = some '/'
    · rw [if_pos hsl]
      cases t with
      | nil => left; rfl
      | cons d ts => right; exact ⟨(d :: ts).dropLast, rfl⟩
    · rw [if_neg hsl]
      right; exact ⟨t, rfl⟩

theorem mem_stripSlash (path : Chars) (c : Char) (h : c ∈ stripSlash path) :
    c ∈ path := by
  rw [stripSlash] at h
  by_cases hsl : path.getLast? = some '/'
  · rw [if_pos hsl] at h
    exact (List.dropLast_sublist path).subset h
  · rwa [if_neg hsl] at h

theorem splitParamsPath_id (l : Chars) (h : ';' ∉ lastSeg l) :
    splitParamsPath l = l := by
  have hseg : ∀ c ∈ lastSeg l, c ∉ ([';'] : Chars) := by
    intro c hc
    simp only [List.mem_singleton]
    intro hcontra
    exact h (hcontra ▸ hc)
  rw [splitParamsPath, spanNot_all _ _ hseg, lastSeg, ← List.reverse_append,
    List.takeWhile_append_dropWhile, List.reverse_reverse]

theorem applyParams_id (scheme l : Chars)
    (h : scheme ∈ usesParams → ';' ∉ lastSeg l) : applyParams scheme l = l := by
  rw [applyParams]
  by_cases hin : scheme ∈ usesParams ∧ ';' ∈ l
  · rw [if_pos hin]
    exact splitParamsPath_id l (h hin.1)
  · rw [if_neg hin]

theorem mem_splitParamsPath (l : Chars) (c : Char)
    (h : c ∈ splitParamsPath l) : c ∈ l := by
  rw [splitParamsPath] at h
  rcases List.mem_append.1 h with h | h
  · rw [List.mem_reverse] at h
    exact List.mem_reverse.1 ((List.dropWhile_sublist _).subset h)
  · have h2 := (mem_spanNot_fst _ _ c h).1
    rw [lastSeg, List.mem_reverse] at h2
    exact List.mem_reverse.1 ((List.takeWhile_sublist _).subset h2)

theorem mem_applyParams (scheme l : Chars) (c : Char)
    (h : c ∈ applyParams scheme l) : c ∈ l := by
  rw [applyParams] at h
  by_cases hin : scheme ∈ usesParams ∧ ';' ∈ l
  · rw [if_pos hin] at h
    exact mem_splitParamsPath l c h
  · rwa [if_neg hin] at h

theorem dropWhileNe_concat_slash (r : Chars) :
    ∃ s : Chars, (r ++ ['/']).dropWhile (fun c => c ≠ '/') = s ++ ['/'] := by
  induction r with
  | nil => exact ⟨[], by simp [List.dropWhile]⟩
  | cons c t ih =>
    by_cases hc : c = '/'
    · exact ⟨c :: t, by simp [List.dropWhile, hc]⟩
    · obtain ⟨s, hs⟩ := ih
      refine ⟨s, ?_⟩
      rw [List.cons_append, List.dropWhile_cons, if_pos (by simp [hc]), hs]

theorem applyParams_shape (scheme l : Chars)
    (h : l = [] ∨ ∃ t, l = '/' :: t) :
    applyParams scheme l = [] ∨ ∃ t, applyParams scheme l = '/' :: t := by
  rcases h with rfl | ⟨t, rfl⟩
  · left
    rw [applyParams]
    simp
  · rw [applyParams]
    by_cases hin : scheme ∈ usesParams ∧ ';' ∈ '/' :: t
    · rw [if_pos hin]
      right
      rw [splitParamsPath, List.reverse_cons]
      obtain ⟨s, hs⟩ := dropWhileNe_concat_slash t.reverse
      rw [hs, List.reverse_append]
      exact ⟨s.reverse ++ (spanNot [';'] (lastSeg ('/' :: t))).1, by simp⟩
    · rw [if_neg hin]
      right
      exact ⟨t, rfl⟩

/-- The normalized URL rewritten in terms of `stripSlash` and
`keptQuery`: scheme, separator and netloc, then the stripped path,
then the kept query preceded by `?` when nonempty. -/
theorem normalizeParsed_eq (p : ParsedUrl) :
    normalizeParsed p =
      (p.scheme ++ (':' :: '/' :: '/' :: p.netloc)) ++
        (stripSlash p.path ++
          if keptQuery p.query = [] then [] else '?' :: keptQuery p.query) := by
  have hbase : (if p.path.getLast? = some '/' then
        ((p.scheme ++ (':' :: '/' :: '/' :: p.netloc)) ++ p.path).dropLast
      else (p.scheme ++ (':' :: '/' :: '/' :: p.netloc)) ++ p.path) =
      (p.scheme ++ (':' :: '/' :: '/' :: p.netloc)) ++ stripSlash p.path := by
    rw [stripSlash]
    by_cases hsl : p.path.getLast? = some '/'
    · have hne : p.path ≠ [] := by
        intro hnil
        rw [hnil] at hsl
        simp at hsl
      rw [if_pos hsl, if_pos hsl, List.dropLast_append_of_ne_nil _ hne]
    · rw [if_neg hsl, if_neg hsl]
  by_cases h1 : p.query = []
  · simp only [normalizeParsed, h1, if_pos rfl, hbase, keptQuery]
    simp
  · by_cases h2 : (splitAmp p.query).filter isImportant = []
    · have hkq : keptQuery p.query = [] := by rw [keptQuery, if_neg h1, if_pos h2]
      simp only [normalizeParsed, h1, h2, if_neg, ite_false, if_pos rfl, hbase, hkq]
      simp
    · have hkq : keptQuery p.query = joinAmp ((splitAmp p.query).filter isImportant) := by
        rw [keptQuery, if_neg h1, if_neg h2]
      have hne : keptQuery p.query ≠ [] := by
        rw [hkq]
        exact joinAmp_ne_nil _ h2 (fun r hr => isImportant_ne_nil r (List.of_mem_filter hr))
      simp only [normalizeParsed, h1, h2, if_neg, ite_false, hbase, hkq]
      rw [if_neg (hkq ▸ hne)]
      simp [List.append_assoc, hkq]

/-- Parsing a URL built from components of the shapes the normalizer
produces recovers exactly those components. -/
theorem urlparseChars_build (sch net pathc q : Chars)
    (hsch : ':' ∉ sch)
    (hnet : ∀ c ∈ net, c ∉ (['/', '?', '#'] : Chars))
    (hpsh : pathc = [] ∨ ∃ t, pathc = '/' :: t)
    (hp : ∀ c ∈ pathc, c ∉ (['?', '#'] : Chars))
    (hqh : '#' ∉ q)
    (hparams : sch ∈ usesParams → ';' ∉ lastSeg pathc) :
    urlparseChars (sch ++ (':' :: ('/' :: '/' :: (net ++ (pathc ++
      (if q = [] then [] else '?' :: q)))))) = ⟨sch, net, pathc, q⟩ := by
  have happly : applyParams sch pathc = pathc := applyParams_id sch pathc hparams
  have hsch' : ∀ c ∈ sch, c ∉ ([':'] : Chars) := by
    intro c hc
    simp only [List.mem_singleton]
    intro hcontra
    exact hsch (hcontra ▸ hc)
  have h1 : ∀ R : Chars, spanNot [':'] (sch ++ (':' :: R)) = (sch, ':' :: R) := by
    intro R
    rw [spanNot_append [':'] sch (':' :: R) hsch']
    simp [spanNot]
  have h2 : ∀ T : Chars, spanNot ['/', '?', '#'] (net ++ T) =
      (net ++ (spanNot ['/', '?', '#'] T).1, (spanNot ['/', '?', '#'] T).2) :=
    fun T => spanNot_append _ _ _ hnet
  have hqall : ∀ c ∈ q, c ∉ (['#'] : Chars) := by
    intro c hc
    simp only [List.mem_singleton]
    intro hcontra
    exact hqh (hcontra ▸ hc)
  by_cases hq0 : q = []
  · subst hq0
    rcases hpsh with rfl | ⟨t, rfl⟩
    · have h2' : spanNot ['/', '?', '#'] net = (net, []) := spanNot_all _ _ hnet
      simp [urlparseChars, h1, h2', spanNot, happly]
    · have ht : ∀ c ∈ t, c ∉ (['?', '#'] : Chars) :=
        fun c hc => hp c (List.mem_cons_of_mem '/' hc)
      have h3 : spanNot ['?', '#'] t = (t, []) := spanNot_all _ _ ht
      simp [urlparseChars, h1, h2, spanNot, h3, happly]
  · rcases hpsh with rfl | ⟨t, rfl⟩
    · have h4 : spanNot ['#'] q = (q, []) := spanNot_all _ _ hqall
      simp [urlparseChars, h1, h2, spanNot, hq0, h4, happly]
    · have ht : ∀ c ∈ t, c ∉ (['?', '#'] : Chars) :=
        fun c hc => hp c (List.mem_cons_of_mem '/' hc)
      have h3 : spanNot ['?', '#'] (t ++ '?' :: q) = (t, '?' :: q) := by
        rw [spanNot_append ['?', '#'] t ('?' :: q) ht]
        simp [spanNot]
      have h4 : spanNot ['#'] q = (q, []) := spanNot_all _ _ hqall
      simp [urlparseChars, h1, h2, spanNot, hq0, h3, h4, happly]

/-- Parsing the normalized URL recovers the components: scheme and
netloc unchanged, the stripped path, and the kept query. -/
theorem urlparse_roundtrip (p : ParsedUrl)
    (hsch : ':' ∉ p.scheme)
    (hnet : ∀ c ∈ p.netloc, c ∉ ([':', '/', '?', '#'] : Chars))
    (hpath_shape : p.path = [] ∨ ∃ t, p.path = '/' :: t)
    (hpath : ∀ c ∈ p.path, c ∉ (['?', '#'] : Chars))
    (hq : '#' ∉ p.query)
    (hparams : p.scheme ∈ usesParams → ';' ∉ lastSeg (stripSlash p.path)) :
    urlparseChars (normalizeParsed p) =
      ⟨p.scheme, p.netloc, stripSlash p.path, keptQuery p.query⟩ := by
  rw [normalizeParsed_eq]
  have hassoc : (p.scheme ++ (':' :: '/' :: '/' :: p.netloc)) ++
      (stripSlash p.path ++
        if keptQuery p.query = [] then [] else '?' :: keptQuery p.query) =
      p.scheme ++ (':' :: ('/' :: '/' :: (p.netloc ++ (stripSlash p.path ++
        (if keptQuery p.query = [] then [] else '?' :: keptQuery p.query))))) := by
    simp [List.append_assoc]
  rw [hassoc]
  refine urlparseChars_build p.scheme p.netloc (stripSlash p.path) (keptQuery p.query)
    hsch ?_ (stripSlash_shape p.path hpath_shape) ?_ (keptQuery_no_hash p.query hq) hparams
  · intro c hc
    have h := hnet c hc
    simp only [List.mem_cons, List.mem_singleton] at h ⊢
    tauto
  · exact fun c hc => hpath c (mem_stripSlash p.path c hc)

/-- Structural facts about the components produced by `urlparseChars`
whenever the netloc is nonempty (which forces the `"://"` branch):
the scheme contains no `:`, the netloc no `/ ? #`, the path is empty
or starts with `/` and contains no `? #`, and the query contains no
`#`. -/
theorem urlparseChars_props (u : Chars) (h : (urlparseChars u).netloc ≠ []) :
    ':' ∉ (urlparseChars u).scheme ∧
      (∀ c ∈ (urlparseChars u).netloc, c ∉ (['/', '?', '#'] : Chars)) ∧
      ((urlparseChars u).path = [] ∨ ∃ t, (urlparseChars u).path = '/' :: t) ∧
      (∀ c ∈ (urlparseChars u).path, c ∉ (['?', '#'] : Chars)) ∧
      '#' ∉ (urlparseChars u).query := by
  by_cases hb : (spanNot [':'] u).2.take 3 = [':', '/', '/']
  · simp only [urlparseChars, hb, if_pos rfl]
    refine ⟨?_, ?_, ?_, ?_, ?_⟩
    · intro hc
      exact (mem_spanNot_fst [':'] u ':' hc).2 (List.mem_singleton.2 rfl)
    · exact fun c hc => (mem_spanNot_fst _ _ c hc).2
    · have hraw : (spanNot ['?', '#'] (spanNot ['/', '?', '#']
          ((spanNot [':'] u).2.drop 3)).2).1 = [] ∨
          ∃ t, (spanNot ['?', '#'] (spanNot ['/', '?', '#']
            ((spanNot [':'] u).2.drop 3)).2).1 = '/' :: t := by
        rcases spanNot_snd_shape ['/', '?', '#'] ((spanNot [':'] u).2.drop 3) with
          h0 | ⟨c, t, hct, hcs⟩
        · left; rw [h0]; rfl
        · rw [hct]
          rcases List.mem_cons.1 hcs with rfl | hcs
          · right
            refine ⟨(spanNot ['?', '#'] t).1, ?_⟩
            simp [spanNot]
          · rcases List.mem_cons.1 hcs with rfl | hcs
            · left; simp [spanNot]
            · rcases List.mem_singleton.1 hcs with rfl
              left; simp [spanNot]
      exact applyParams_shape _ _ hraw
    · exact fun c hc => (mem_spanNot_fst _ _ c (mem_applyParams _ _ c hc)).2
    · by_cases hqm : (spanNot ['?', '#']
          (spanNot ['/', '?', '#'] ((spanNot [':'] u).2.drop 3)).2).2.take 1 = ['?']
      · simp only [hqm, if_pos rfl]
        intro hc
        exact (mem_spanNot_fst ['#'] _ '#' hc).2 (List.mem_singleton.2 rfl)
      · simp [hqm]
  · exfalso
    apply h
    simp [urlparseChars, hb]

/-- A link accepted by the host filter has a nonempty netloc free of
`:` (given a site path that is itself nonempty and free of `:`). -/
theorem hostOk_netloc (site : Chars) (p : ParsedUrl)
    (hsp : ':' ∉ site) (hne : site ≠ []) (h : hostOk site p = true) :
    p.netloc ≠ [] ∧ ':' ∉ p.netloc := by
  rw [hostOk, Bool.or_eq_true, beq_iff_eq, beq_iff_eq] at h
  rcases h with h | h
  · rw [h]; exact ⟨hne, hsp⟩
  · rw [h]
    refine ⟨by simp, ?_⟩
    intro hc
    rcases List.mem_cons.1 hc with hc | hc
    · exact absurd hc (by decide)
    rcases List.mem_cons.1 hc with hc | hc
    · exact absurd hc (by decide)
    rcases List.mem_cons.1 hc with hc | hc
    · exact absurd hc (by decide)
    rcases List.mem_cons.1 hc with hc | hc
    · exact absurd hc (by decide)
    · exact hsp hc

/-! ### Claim C5 -/

/-- Counterexample for C5 as stated: normalization is not idempotent
on every in-scope URL string, for two independent reasons.  First, the
normalizer strips only a single trailing slash, so for `h://x/a//`
(host `x` in scope) one application yields `h://x/a/` and a second
strips again, yielding `h://x/a`.  Second, for `uses_params` schemes,
`urlparse` splits the `;params` suffix of the last path segment: for
`http://x/a;b/` the trailing slash shields the `;` on the first parse
(`normalize` yields `http://x/a;b`), but re-parsing that output splits
the now-final segment `a;b`, yielding `http://x/a`. -/
theorem c5_counterexample_double_slash :
    hostOk "x".toList (urlparseChars "h://x/a//".toList) = true ∧
      normalize "h://x/a//" = "h://x/a/" ∧
      normalize (normalize "h://x/a//") = "h://x/a" ∧
      normalize (normalize "h://x/a//") ≠ normalize "h://x/a//" ∧
      hostOk "x".toList (urlparseChars "http://x/a;b/".toList) = true ∧
      normalize "http://x/a;b/" = "http://x/a;b" ∧
      normalize (normalize "http://x/a;b/") = "http://x/a" ∧
      normalize (normalize "http://x/a;b/") ≠ normalize "http://x/a;b/" := by decide

/-- C5 (amended): normalization is idempotent for every in-scope URL
string whose parsed path — with any `;params` suffix already split
from its last segment — still does not end with `/` after the single
trailing-slash strip (i.e. the path does not end in two or more
consecutive slashes), and which, for a `uses_params` scheme, does not
carry a `;` in the final segment the strip exposes (otherwise a
re-parse splits that segment's `;params` suffix); the trailing-slash
and non-trailing-slash forms of the same path normalize to the
identical canonical string. -/
theorem c5_normalize_idempotent_amended :
    (∀ (sitePath u : String), ':' ∉ sitePath.toList → sitePath.toList ≠ [] →
        hostOk sitePath.toList (urlparseChars u.toList) = true →
        (stripSlash (urlparseChars u.toList).path).getLast? ≠ some '/' →
        ((urlparseChars u.toList).scheme ∈ usesParams →
          ';' ∉ lastSeg (stripSlash (urlparseChars u.toList).path)) →
        normalize (normalize u) = normalize u) ∧
      (∀ p : ParsedUrl, p.path.getLast? ≠ some '/' →
        normalizeParsed { p with path := p.path ++ ['/'] } = normalizeParsed p) := by
  constructor
  · intro sitePath u hsp hne hhost hstrip hparams
    obtain ⟨hn1, hn2⟩ := hostOk_netloc sitePath.toList (urlparseChars u.toList) hsp hne hhost
    obtain ⟨hsch, hnet, hpshape, hpath, hq⟩ := urlparseChars_props u.toList hn1
    have hnet' : ∀ c ∈ (urlparseChars u.toList).netloc,
        c ∉ ([':', '/', '?', '#'] : Chars) := by
      intro c hc
      have h4 := hnet c hc
      simp only [List.mem_cons, List.mem_singleton] at h4 ⊢
      push_neg at h4 ⊢
      exact ⟨fun hcontra => hn2 (hcontra ▸ hc), h4⟩
    have hround := urlparse_roundtrip (urlparseChars u.toList) hsch hnet' hpshape hpath hq hparams
    have hstep : (normalize u).toList = normalizeParsed (urlparseChars u.toList) := rfl
    show (normalizeParsed (urlparseChars (normalize u).toList)).asString = normalize u
    rw [hstep, hround]
    have hfinal : normalizeParsed
        ⟨(urlparseChars u.toList).scheme, (urlparseChars u.toList).netloc,
          stripSlash (urlparseChars u.toList).path,
          keptQuery (urlparseChars u.toList).query⟩ =
        normalizeParsed (urlparseChars u.toList) := by
      rw [normalizeParsed_eq, normalizeParsed_eq]
      simp only
      rw [stripSlash_of_getLast_ne _ hstrip, keptQuery_idem]
    rw [hfinal]
    rfl
  · intro p h
    rw [normalizeParsed_eq, normalizeParsed_eq]
    simp only
    have h1 : stripSlash (p.path ++ ['/']) = p.path := by
      rw [stripSlash, if_pos (by simp), List.dropLast_concat]
    have h2 : stripSlash p.path = p.path := stripSlash_of_getLast_ne p.path h
    rw [h1, h2]

/-- Witness for C5 (amended): the claim's own example pair — the
trailing-slash and plain forms of an in-scope http path — normalize
identically, and normalization is idempotent on the trailing-slash
form (here the scheme is subject to the params split, and the exposed
final segment carries no `;`). -/
theorem c5_normalize_idempotent_witness :
    (':' ∉ "x".toList ∧ "x".toList ≠ [] ∧
        hostOk "x".toList (urlparseChars "http://x/t/".toList) = true ∧
        (stripSlash (urlparseChars "http://x/t/".toList).path).getLast? ≠ some '/' ∧
        ((urlparseChars "http://x/t/".toList).scheme ∈ usesParams →
          ';' ∉ lastSeg (stripSlash (urlparseChars "http://x/t/".toList).path))) ∧
      normalize (normalize "http://x/t/") = normalize "http://x/t/" ∧
      normalizeParsed ⟨"h".toList, "x".toList, "/t".toList ++ ['/'], []⟩ =
        normalizeParsed ⟨"h".toList, "x".toList, "/t".toList, []⟩ :=
  ⟨⟨by decide, by decide, by decide, by decide, by decide⟩,
   c5_normalize_idempotent_amended.1 "x" "http://x/t/" (by decide) (by decide)
     (by decide) (by decide) (by decide),
   c5_normalize_idempotent_amended.2 ⟨"h".toList, "x".toList, "/t".toList, []⟩
     (by decide)⟩

end Crawler
